import Mathlib

/-!
Verification of the zip-templates engine (Rust crate `zip_templates`,
`src/rust/src/lib.rs`) against its natural-language specification.

The embedding models template strings as Lean `String`s (the markers
searched for are ASCII, so byte-index scanning in Rust and
codepoint-index scanning here segment the text identically).  The
parser's `while` loop is modelled by a fuel-indexed recursion
`parseCore`; `parseCore_total` shows fuel `length + 1` always suffices,
which is the formal content of loop termination.  Hash maps
(`rustc_hash::FxHashMap`) are modelled as association lists with
unique keys; `insertFM` mirrors `HashMap::insert` (replace the value
when the key is present, otherwise append).
-/

set_option maxHeartbeats 1000000

/-- Index of the first occurrence of the two-character marker `a, b` in a
character list, mirroring Rust `str::find` applied to a two-byte pattern
(both markers used by the parser are ASCII, so byte positions and
character positions coincide at every match). -/
def findPair (a b : Char) : List Char → Option Nat
  | c :: d :: rest =>
    if c = a ∧ d = b then some 0 else (findPair a b (d :: rest)).map (· + 1)
  | _ => none

/-- The characters with the Unicode `White_Space` property, which is what
Rust `char::is_whitespace` tests. -/
def rustWhitespace : List Char :=
  [' ', '\t', '\n', '\x0b', '\x0c', '\r', '\u0085', ' ', ' ',
   ' ', ' ', ' ', ' ', ' ', ' ', ' ',
   ' ', ' ', ' ', ' ', ' ', ' ', ' ',
   ' ', '　']

/-- Rust `char::is_whitespace`. -/
def rustIsWhitespace (c : Char) : Bool := rustWhitespace.contains c

/-- Rust `str::trim`: remove leading and trailing whitespace. -/
def trimChars (l : List Char) : List Char :=
  ((l.dropWhile rustIsWhitespace).reverse.dropWhile rustIsWhitespace).reverse

/-- The scanning loop of `ZipTemplate::parse_with_capacity`
(src/rust/src/lib.rs lines 63-93), as a fuel-indexed recursion on the
still-unscanned suffix of the template (the suffix starting at the Rust
`cursor`).  Each step looks for the next open marker; if an open marker
and a matching close marker are found, the text before the marker
becomes a static segment and the trimmed text between the markers a
placeholder key; otherwise (no open marker left, or an unterminated
open marker) the whole remaining suffix becomes the final static
segment, mirroring the `break` plus the final
`statics.push(template[cursor..])`.  Returns `none` only when the fuel
runs out, which `parseCore_total` below proves never happens for fuel
`length + 1`. -/
def parseCore : Nat → List Char → Option (List (List Char) × List (List Char))
  | 0, _ => none
  | fuel + 1, l =>
    match findPair '\x7b' '\x7b' l with
    | none => some ([l], [])
    | some openIdx =>
      match findPair '\x7d' '\x7d' (l.drop (openIdx + 2)) with
      | none => some ([l], [])
      | some endIdx =>
        match parseCore fuel ((l.drop (openIdx + 2)).drop (endIdx + 2)) with
        | none => none
        | some (ss, ps) =>
          some (l.take openIdx :: ss,
                trimChars ((l.drop (openIdx + 2)).take endIdx) :: ps)

/-- The scan of a whole template, run with sufficient fuel.  The default
value is never used (`parseCore_total`). -/
def parseRaw (l : List Char) : List (List Char) × List (List Char) :=
  (parseCore (l.length + 1) l).getD ([l], [])

/-- Number of well-formed placeholder occurrences the scanner recognizes,
by the same left-to-right non-greedy scan as `parseCore`. -/
def countCore : Nat → List Char → Nat
  | 0, _ => 0
  | fuel + 1, l =>
    match findPair '\x7b' '\x7b' l with
    | none => 0
    | some openIdx =>
      match findPair '\x7d' '\x7d' (l.drop (openIdx + 2)) with
      | none => 0
      | some endIdx =>
        countCore fuel ((l.drop (openIdx + 2)).drop (endIdx + 2)) + 1

/-- Number of well-formed placeholder occurrences in a template string. -/
def countPlaceholders (t : String) : Nat :=
  countCore (t.data.length + 1) t.data

/-- Returns `true` iff the template contains at least one well-formed placeholder:
an open marker with a close marker after it.  (If the first open marker
is unterminated, every later one is as well.) -/
def hasPlaceholder (l : List Char) : Bool :=
  match findPair '\x7b' '\x7b' l with
  | none => false
  | some openIdx => (findPair '\x7d' '\x7d' (l.drop (openIdx + 2))).isSome

/-- A parsed template: the static text segments, the placeholder keys,
and the pre-emptive output-buffer size hint (src/rust/src/lib.rs lines
14-21). -/
structure ZipTemplate where
  statics : List String
  placeholders : List String
  pre_emptive_size : Nat
  deriving Repr, DecidableEq

/-- Rust `ZipTemplate::parse_with_capacity`: run the scan, then pad the
placeholder list with one empty sentinel key when it is shorter than the
static list, so both lists have equal length (src/rust/src/lib.rs lines
63-107). -/
def ZipTemplate.parse_with_capacity (template : String) (pre_emptive_size : Nat) :
    ZipTemplate :=
  let raw := parseRaw template.data
  { statics := raw.1.map String.mk
    placeholders :=
      (if raw.2.length < raw.1.length then raw.2 ++ [[]] else raw.2).map String.mk
    pre_emptive_size := pre_emptive_size }

/-- Rust `ZipTemplate::parse`: parse with the default capacity heuristic
`(template.len() as f32 * 1.5) as usize` (src/rust/src/lib.rs lines
29-31).  Rust computes byte length through an `f32`; the model uses
`3 * length / 2` over codepoint count, which agrees on small even-length
ASCII inputs and, by the capacity-irrelevance theorem for claim C10,
never affects any rendered output. -/
def ZipTemplate.parse (template : String) : ZipTemplate :=
  ZipTemplate.parse_with_capacity template (template.length * 3 / 2)

/-- Rust `ZipTemplate::static_parts_count`. -/
def ZipTemplate.static_parts_count (self : ZipTemplate) : Nat :=
  self.statics.length

/-- The interleaving loop of `ZipTemplate::render_from_vec`
(src/rust/src/lib.rs lines 184-198): for each static segment append it,
then append the next dynamic value while one remains.  The Rust
`String::with_capacity(pre_emptive_size)` start value is the empty
string here, capacity being unobservable in the string value. -/
def renderFromVec : List String → List String → String
  | [], _ => ""
  | s :: ss, [] => s ++ renderFromVec ss []
  | s :: ss, d :: ds => s ++ (d ++ renderFromVec ss ds)

/-- Rust `ZipTemplate::render_from_vec` (positional rendering). -/
def ZipTemplate.render_from_vec (self : ZipTemplate) (dynamics : List String) :
    String :=
  renderFromVec self.statics dynamics

/-- Rust `ZipTemplate::render` (src/rust/src/lib.rs lines 145-153): resolve
each placeholder key through the flat map, a missing key resolving to
the empty string, then interleave. -/
def ZipTemplate.render (self : ZipTemplate) (flat : List (String × String)) :
    String :=
  self.render_from_vec (self.placeholders.map fun p => ((List.lookup p flat).getD ""))

/-- Model of `serde_json::Value`.  Objects are ordered association lists of fields
(`serde_json`'s default `Map` iterates in sorted key order; the model
keeps whatever order the list carries, and concrete inputs below are
written in sorted key order).  Numbers are carried by their canonical
textual representation, the string `Display` for the number produces. -/
inductive Json where
  | null
  | bool (b : Bool)
  | num (canonical : String)
  | str (s : String)
  | arr (elems : List Json)
  | obj (fields : List (String × Json))

/-- Path extension used by `flatten_json`: bare `seg` when the running
path is empty, else `pfx ++ "." ++ seg` (src/rust/src/lib.rs lines
256-260 and 266-270). -/
def joinPath (pfx seg : String) : String :=
  if pfx.isEmpty then seg else pfx ++ "." ++ seg

/-- Lowercase hexadecimal digit, as used by `serde_json` control-character
escapes. -/
def hexDigit (n : Nat) : Char :=
  if n < 10 then Char.ofNat ('0'.toNat + n) else Char.ofNat ('a'.toNat + (n - 10))

/-- Escaping of one character as `serde_json` does it inside a JSON string literal:
quote and backslash get a backslash escape, the five control characters
with short escapes use them, other control characters below U+0020 use a
`\u00xx` escape, and everything else is emitted verbatim. -/
def escapeChar (c : Char) : List Char :=
  if c = '"' then ['\\', '"']
  else if c = '\\' then ['\\', '\\']
  else if c = '\x08' then ['\\', 'b']
  else if c = '\t' then ['\\', 't']
  else if c = '\n' then ['\\', 'n']
  else if c = '\x0c' then ['\\', 'f']
  else if c = '\r' then ['\\', 'r']
  else if c.toNat < 0x20 then
    ['\\', 'u', '0', '0', hexDigit (c.toNat / 16), hexDigit (c.toNat % 16)]
  else [c]

/-- The JSON serialization of a string value: the escaped content between
two quote characters.  This is `serde_json`'s `Value::to_string()` on a
`Value::String`. -/
def jsonStringLiteral (s : String) : String :=
  String.mk ('"' :: (s.data.map escapeChar).flatten ++ ['"'])

/-- Rust `serde_json` `Value::to_string()` restricted to the scalar values
reaching the catch-all arm of `flatten_json` (booleans, numbers,
strings).  Unreachable constructors return the empty string. -/
def scalarToString : Json → String
  | .bool true => "true"
  | .bool false => "false"
  | .num canonical => canonical
  | .str s => jsonStringLiteral s
  | _ => ""

/-- Rust `str::trim_matches` with a single-character pattern: strip every
leading and every trailing occurrence of that character. -/
def trimMatches (q : Char) (l : List Char) : List Char :=
  ((l.dropWhile (· = q)).reverse.dropWhile (· = q)).reverse

/-- The string inserted for a non-null scalar leaf:
`value.to_string().trim_matches('"')` (src/rust/src/lib.rs line 278). -/
def scalarFlat (v : Json) : String :=
  String.mk (trimMatches '"' (scalarToString v).data)

/-- Rust `HashMap::insert` on the association-list model of `FxHashMap`:
replace the value when the key is present, otherwise append the new
entry. -/
def insertFM (k v : String) : List (String × String) → List (String × String)
  | [] => [(k, v)]
  | (k', v') :: rest => if k' = k then (k', v) :: rest else (k', v') :: insertFM k v rest

mutual

/-- The recursive `helper` of `flatten_json` (src/rust/src/lib.rs lines
252-281): walk the value, extending the running path, and insert one
entry per scalar leaf into the accumulated map. -/
def flattenHelper : Json → String → List (String × String) → List (String × String)
  | .obj fields, pfx, out => flattenFields fields pfx out
  | .arr elems, pfx, out => flattenElems elems 0 pfx out
  | .null, pfx, out => insertFM pfx "" out
  | v, pfx, out => insertFM pfx (scalarFlat v) out

/-- The object loop of `flatten_json`'s helper: recurse on each field in
order with the key appended to the path. -/
def flattenFields : List (String × Json) → String → List (String × String) →
    List (String × String)
  | [], _, out => out
  | (k, v) :: rest, pfx, out => flattenFields rest pfx (flattenHelper v (joinPath pfx k) out)

/-- The array loop of `flatten_json`'s helper: recurse on each element
with its decimal index appended to the path. -/
def flattenElems : List Json → Nat → String → List (String × String) →
    List (String × String)
  | [], _, _, out => out
  | v :: rest, i, pfx, out =>
    flattenElems rest (i + 1) pfx (flattenHelper v (joinPath pfx (toString i)) out)

end

/-- Rust `flatten_json` (src/rust/src/lib.rs lines 251-285): flatten a nested
value into a map from dot-joined path to stringified leaf. -/
def flatten_json (value : Json) : List (String × String) :=
  flattenHelper value "" []

mutual

/-- Specification-side enumeration of the scalar leaves of a value, as
`(dot-joined path, stringified leaf)` pairs in traversal order.  This
follows the spec's description of the flattener's result ("one flat
mapping entry per leaf value reachable from the root"); the theorems for
claim C3 compare `flatten_json` against it. -/
def leafEntries : Json → String → List (String × String)
  | .obj fields, pfx => leafEntriesFields fields pfx
  | .arr elems, pfx => leafEntriesElems elems 0 pfx
  | .null, pfx => [(pfx, "")]
  | v, pfx => [(pfx, scalarFlat v)]

/-- Leaves of an object's fields, in field order. -/
def leafEntriesFields : List (String × Json) → String → List (String × String)
  | [], _ => []
  | (k, v) :: rest, pfx => leafEntries v (joinPath pfx k) ++ leafEntriesFields rest pfx

/-- Leaves of an array's elements, in element order. -/
def leafEntriesElems : List Json → Nat → String → List (String × String)
  | [], _, _ => []
  | v :: rest, i, pfx => leafEntries v (joinPath pfx (toString i)) ++ leafEntriesElems rest (i + 1) pfx

end

/-- The first `n` values of a positional value list, padded with empty
strings up to length `n`: the value each of `n` placeholder slots
resolves to under positional rendering. -/
def takePad (n : Nat) (vs : List String) : List String :=
  vs.take n ++ List.replicate (n - vs.length) ""

/-- Concatenation of a list of strings, in order. -/
def concatAll : List String → String
  | [] => ""
  | s :: ss => s ++ concatAll ss

/-- A found marker lies entirely inside the scanned list. -/
theorem findPair_bound {a b : Char} :
    ∀ {l : List Char} {i : Nat}, findPair a b l = some i → i + 2 ≤ l.length := by
  intro l
  induction l with
  | nil => intro i h; simp [findPair] at h
  | cons c tl ih =>
    intro i h
    cases tl with
    | nil => simp [findPair] at h
    | cons d rest =>
      rw [findPair] at h
      split at h
      · cases h
        simp
      · cases h4 : findPair a b (d :: rest) with
        | none => rw [h4] at h; simp at h
        | some j =>
          rw [h4] at h
          simp only [Option.map_some'] at h
          cases h
          have := ih h4
          simp at this ⊢
          omega

/-- Termination of the scanning loop: fuel `length + 1` never runs out,
because each recognized placeholder strictly shrinks the unscanned
suffix. -/
theorem parseCore_total :
    ∀ (fuel : Nat) (l : List Char), l.length < fuel → (parseCore fuel l).isSome := by
  intro fuel
  induction fuel with
  | zero => intro l h; exact absurd h (Nat.not_lt_zero _)
  | succ n ih =>
    intro l h
    cases h1 : findPair '\x7b' '\x7b' l with
    | none => rw [parseCore, h1]; rfl
    | some i =>
      rw [parseCore, h1]
      dsimp only
      cases h2 : findPair '\x7d' '\x7d' (l.drop (i + 2)) with
      | none => rfl
      | some j =>
        dsimp only
        have b1 := findPair_bound h1
        have b2 := findPair_bound h2
        simp only [List.length_drop] at b2
        have hlen : (List.drop (j + 2) (List.drop (i + 2) l)).length < n := by
          simp only [List.length_drop]
          omega
        have hs := ih _ hlen
        cases h3 : parseCore n (List.drop (j + 2) (List.drop (i + 2) l)) with
        | none => rw [h3] at hs; simp at hs
        | some r => cases r; rfl

/-- The scan result `parseRaw` is the unique result of the scan at fuel `length + 1`. -/
theorem parseRaw_spec (l : List Char) :
    parseCore (l.length + 1) l = some (parseRaw l) := by
  have h := parseCore_total (l.length + 1) l (Nat.lt_succ_self _)
  unfold parseRaw
  cases h2 : parseCore (l.length + 1) l with
  | none => rw [h2] at h; simp at h
  | some r => simp

/-- The scan always produces exactly one more static segment than
placeholder keys. -/
theorem parseCore_shape :
    ∀ (fuel : Nat) (l : List Char) (ss ps : List (List Char)),
      parseCore fuel l = some (ss, ps) → ss.length = ps.length + 1 := by
  intro fuel
  induction fuel with
  | zero => intro l ss ps h; simp [parseCore] at h
  | succ n ih =>
    intro l ss ps h
    rw [parseCore] at h
    cases h1 : findPair '\x7b' '\x7b' l with
    | none => rw [h1] at h; cases h; simp
    | some i =>
      rw [h1] at h
      dsimp only at h
      cases h2 : findPair '\x7d' '\x7d' (l.drop (i + 2)) with
      | none => rw [h2] at h; cases h; simp
      | some j =>
        rw [h2] at h
        dsimp only at h
        cases h3 : parseCore n (List.drop (j + 2) (List.drop (i + 2) l)) with
        | none => rw [h3] at h; cases h
        | some r =>
          rw [h3] at h
          obtain ⟨ss', ps'⟩ := r
          cases h
          have := ih _ _ _ h3
          simp [this]

/-- The number of placeholder keys the scan produces is the number of
recognized placeholder occurrences. -/
theorem parseCore_count :
    ∀ (fuel : Nat) (l : List Char) (ss ps : List (List Char)),
      parseCore fuel l = some (ss, ps) → ps.length = countCore fuel l := by
  intro fuel
  induction fuel with
  | zero => intro l ss ps h; simp [parseCore] at h
  | succ n ih =>
    intro l ss ps h
    rw [parseCore] at h
    rw [countCore]
    cases h1 : findPair '\x7b' '\x7b' l with
    | none => rw [h1] at h; dsimp only; cases h; simp
    | some i =>
      rw [h1] at h
      dsimp only at h ⊢
      cases h2 : findPair '\x7d' '\x7d' (l.drop (i + 2)) with
      | none => rw [h2] at h; dsimp only; cases h; simp
      | some j =>
        rw [h2] at h
        dsimp only at h ⊢
        cases h3 : parseCore n (List.drop (j + 2) (List.drop (i + 2) l)) with
        | none => rw [h3] at h; cases h
        | some r =>
          rw [h3] at h
          obtain ⟨ss', ps'⟩ := r
          cases h
          have := ih _ _ _ h3
          simp [this]

/-- Shape of the whole-template scan. -/
theorem parseRaw_shape (l : List Char) :
    (parseRaw l).1.length = (parseRaw l).2.length + 1 := by
  have h := parseRaw_spec l
  exact parseCore_shape _ _ _ _ (by rw [h])

/-- The statics of a parsed template are the scanned static segments. -/
theorem parse_with_capacity_statics (t : String) (c : Nat) :
    (ZipTemplate.parse_with_capacity t c).statics = (parseRaw t.data).1.map String.mk :=
  rfl

/-- The placeholder padding always fires: the parsed placeholders are the
scanned keys followed by one empty sentinel. -/
theorem parse_with_capacity_placeholders (t : String) (c : Nat) :
    (ZipTemplate.parse_with_capacity t c).placeholders
      = (parseRaw t.data).2.map String.mk ++ [""] := by
  have h := parseRaw_shape t.data
  simp only [ZipTemplate.parse_with_capacity]
  split
  · simp
  · omega

/-- Both components of a parsed template have length `k + 1`, `k` the
recognized placeholder count. -/
theorem parse_with_capacity_lengths (t : String) (c : Nat) :
    (ZipTemplate.parse_with_capacity t c).statics.length = countPlaceholders t + 1
      ∧ (ZipTemplate.parse_with_capacity t c).placeholders.length = countPlaceholders t + 1 := by
  have hsh := parseRaw_shape t.data
  have hc : (parseRaw t.data).2.length = countPlaceholders t := by
    have h := parseRaw_spec t.data
    exact parseCore_count _ _ _ _ (by rw [h])
  constructor
  · rw [parse_with_capacity_statics]
    simp [hsh, hc]
  · rw [parse_with_capacity_placeholders]
    simp [hc]

/-- The interleaving loop `renderFromVec` is exactly the interleaving of the statics with the
first `statics.length` dynamic values, missing values standing for the
empty string: each static is followed by the value of its slot, and
values beyond the slot count never reach the output. -/
theorem renderFromVec_spec :
    ∀ (ss ds : List String),
      renderFromVec ss ds
        = concatAll (List.zipWith (fun s d => s ++ d) ss (takePad ss.length ds)) := by
  intro ss
  induction ss with
  | nil => intro ds; simp [renderFromVec, takePad, concatAll]
  | cons s ss ih =>
    intro ds
    cases ds with
    | nil =>
      have h0 : takePad (ss.length + 1) ([] : List String)
          = "" :: takePad ss.length [] := by
        simp [takePad, List.replicate_succ]
      simp only [renderFromVec, List.length_cons, h0, List.zipWith_cons_cons, concatAll]
      rw [ih []]
      simp [takePad]
    | cons d ds =>
      have h0 : takePad (ss.length + 1) (d :: ds) = d :: takePad ss.length ds := by
        simp [takePad, List.take_succ_cons, Nat.succ_sub_succ]
      simp only [renderFromVec, List.length_cons, h0, List.zipWith_cons_cons, concatAll]
      rw [ih ds]
      simp [takePad, Nat.succ_sub_succ, String.append_assoc]

/-- When there are exactly as many values as slots, every value is used
as given. -/
theorem takePad_eq_self (ds : List String) : takePad ds.length ds = ds := by
  simp [takePad]

/-- Appending one empty string to the dynamic values never changes the
rendered output. -/
theorem renderFromVec_concat_empty :
    ∀ (ss ds : List String), renderFromVec ss (ds ++ [""]) = renderFromVec ss ds := by
  intro ss
  induction ss with
  | nil => intro ds; simp [renderFromVec]
  | cons s ss ih =>
    intro ds
    cases ds with
    | nil => simp [renderFromVec, ih]
    | cons d ds =>
      show s ++ (d ++ renderFromVec ss (ds ++ [""])) = s ++ (d ++ renderFromVec ss ds)
      rw [ih ds]

/-- Inserting a fresh key appends the entry at the end of the map. -/
theorem insertFM_append (k v : String) :
    ∀ (m : List (String × String)), k ∉ m.map Prod.fst → insertFM k v m = m ++ [(k, v)] := by
  intro m
  induction m with
  | nil => intro _; rfl
  | cons e rest ih =>
    intro h
    obtain ⟨k', v'⟩ := e
    simp only [List.map_cons, List.mem_cons] at h
    push_neg at h
    simp only [insertFM]
    rw [if_neg (by exact fun hc => h.1 hc.symm), ih h.2]
    simp

/-- A `dropWhile` is the identity when no element satisfies the predicate's
character. -/
theorem dropWhile_eq_of_ne {q : Char} :
    ∀ {l : List Char}, (∀ c ∈ l, c ≠ q) → l.dropWhile (· = q) = l := by
  intro l h
  cases l with
  | nil => rfl
  | cons c tl =>
    rw [List.dropWhile_cons]
    simp [h c (by simp)]

/-- Rust `trim_matches` does nothing when the character never occurs. -/
theorem trimMatches_eq_of_ne {q : Char} {l : List Char} (h : ∀ c ∈ l, c ≠ q) :
    trimMatches q l = l := by
  unfold trimMatches
  rw [dropWhile_eq_of_ne h, dropWhile_eq_of_ne (by intro c hc; exact h c (List.mem_reverse.mp hc)),
    List.reverse_reverse]

/-- Rust `trim_matches` strips exactly one wrapping occurrence when the wrapped
content is free of the character. -/
theorem trimMatches_wrap {q : Char} {l : List Char} (h : ∀ c ∈ l, c ≠ q) :
    trimMatches q (q :: (l ++ [q])) = l := by
  have step1 : (q :: (l ++ [q])).dropWhile (· = q) = (l ++ [q]).dropWhile (· = q) := by
    rw [List.dropWhile_cons]
    simp
  unfold trimMatches
  rw [step1]
  cases l with
  | nil => simp
  | cons c tl =>
    have hc : c ≠ q := h c (by simp)
    have step2 : ((c :: tl) ++ [q]).dropWhile (· = q) = (c :: tl) ++ [q] := by
      rw [List.cons_append, List.dropWhile_cons]
      simp [hc]
    rw [step2]
    have step3 : ((c :: tl) ++ [q]).reverse = q :: (c :: tl).reverse := by simp
    rw [step3]
    have step4 : ((c :: tl).reverse).dropWhile (· = q) = (c :: tl).reverse :=
      dropWhile_eq_of_ne (by intro x hx; exact h x (List.mem_reverse.mp hx))
    rw [List.dropWhile_cons, if_pos (by simp), step4, List.reverse_reverse]

/-- Characters needing no JSON escaping are emitted verbatim. -/
theorem escapeChar_tame {c : Char} (h1 : c ≠ '"') (h2 : c ≠ '\\')
    (h3 : 0x20 ≤ c.toNat) : escapeChar c = [c] := by
  unfold escapeChar
  rw [if_neg h1, if_neg h2,
    if_neg (by rintro rfl; exact absurd h3 (by decide)),
    if_neg (by rintro rfl; exact absurd h3 (by decide)),
    if_neg (by rintro rfl; exact absurd h3 (by decide)),
    if_neg (by rintro rfl; exact absurd h3 (by decide)),
    if_neg (by rintro rfl; exact absurd h3 (by decide)),
    if_neg (by omega)]

/-- Escaping a list of characters needing no escaping is the identity. -/
theorem escapeList_tame :
    ∀ (l : List Char), (∀ c ∈ l, c ≠ '"' ∧ c ≠ '\\' ∧ 0x20 ≤ c.toNat) →
      (l.map escapeChar).flatten = l := by
  intro l
  induction l with
  | nil => intro _; rfl
  | cons c tl ih =>
    intro h
    obtain ⟨hc1, hc2, hc3⟩ := h c (by simp)
    simp only [List.map_cons, List.flatten_cons, escapeChar_tame hc1 hc2 hc3]
    rw [ih (fun x hx => h x (by simp [hx]))]
    rfl

/-- For a string free of characters that JSON escapes, the flattened leaf
text is the raw string content. -/
theorem scalarFlat_str_tame {s : String}
    (h : ∀ c ∈ s.data, c ≠ '"' ∧ c ≠ '\\' ∧ 0x20 ≤ c.toNat) :
    scalarFlat (Json.str s) = s := by
  show String.mk (trimMatches '"' (jsonStringLiteral s).data) = s
  have hdata : (jsonStringLiteral s).data = '"' :: (s.data ++ ['"']) := by
    show ('"' :: (s.data.map escapeChar).flatten ++ ['"']) = _
    rw [escapeList_tame s.data h]
    simp
  rw [hdata, trimMatches_wrap (fun c hc => (h c hc).1)]

/-- For a scalar whose serialization contains no quote character the
flattened leaf text is the serialization itself. -/
theorem scalarFlat_no_quote {v : Json}
    (h : ∀ c ∈ (scalarToString v).data, c ≠ '"') :
    scalarFlat v = scalarToString v := by
  show String.mk (trimMatches '"' (scalarToString v).data) = _
  rw [trimMatches_eq_of_ne h]

mutual

/-- When the leaf paths below a value are mutually distinct and fresh for
the accumulated map, the flattening walk appends exactly the leaf
entries, in traversal order. -/
theorem flattenHelper_spec (v : Json) (pfx : String) (out : List (String × String))
    (hn : ((leafEntries v pfx).map Prod.fst).Nodup)
    (hd : ∀ k ∈ out.map Prod.fst, k ∉ (leafEntries v pfx).map Prod.fst) :
    flattenHelper v pfx out = out ++ leafEntries v pfx := by
  cases v with
  | null =>
    show insertFM pfx "" out = out ++ [(pfx, "")]
    exact insertFM_append pfx "" out (fun hmem => hd pfx hmem (by simp [leafEntries]))
  | bool b =>
    show insertFM pfx (scalarFlat (Json.bool b)) out = out ++ [(pfx, scalarFlat (Json.bool b))]
    exact insertFM_append _ _ out (fun hmem => hd pfx hmem (by simp [leafEntries]))
  | num r =>
    show insertFM pfx (scalarFlat (Json.num r)) out = out ++ [(pfx, scalarFlat (Json.num r))]
    exact insertFM_append _ _ out (fun hmem => hd pfx hmem (by simp [leafEntries]))
  | str s =>
    show insertFM pfx (scalarFlat (Json.str s)) out = out ++ [(pfx, scalarFlat (Json.str s))]
    exact insertFM_append _ _ out (fun hmem => hd pfx hmem (by simp [leafEntries]))
  | arr elems =>
    show flattenElems elems 0 pfx out = out ++ leafEntriesElems elems 0 pfx
    exact flattenElems_spec elems 0 pfx out hn hd
  | obj fields =>
    show flattenFields fields pfx out = out ++ leafEntriesFields fields pfx
    exact flattenFields_spec fields pfx out hn hd

/-- Object-field walk of the flattener, under the same freshness
conditions. -/
theorem flattenFields_spec (fs : List (String × Json)) (pfx : String)
    (out : List (String × String))
    (hn : ((leafEntriesFields fs pfx).map Prod.fst).Nodup)
    (hd : ∀ k ∈ out.map Prod.fst, k ∉ (leafEntriesFields fs pfx).map Prod.fst) :
    flattenFields fs pfx out = out ++ leafEntriesFields fs pfx := by
  match fs with
  | [] => simp [flattenFields, leafEntriesFields]
  | (k, v) :: rest =>
    have hsplit : leafEntriesFields ((k, v) :: rest) pfx
        = leafEntries v (joinPath pfx k) ++ leafEntriesFields rest pfx := rfl
    rw [hsplit, List.map_append] at hd
    rw [hsplit, List.map_append, List.nodup_append] at hn
    obtain ⟨hn1, hn2, hdisj⟩ := hn
    have step1 : flattenHelper v (joinPath pfx k) out = out ++ leafEntries v (joinPath pfx k) :=
      flattenHelper_spec v (joinPath pfx k) out hn1
        (fun x hx hmem => hd x hx (List.mem_append_left _ hmem))
    show flattenFields rest pfx (flattenHelper v (joinPath pfx k) out)
        = out ++ leafEntriesFields ((k, v) :: rest) pfx
    rw [step1]
    have step2 : flattenFields rest pfx (out ++ leafEntries v (joinPath pfx k))
        = (out ++ leafEntries v (joinPath pfx k)) ++ leafEntriesFields rest pfx := by
      apply flattenFields_spec rest pfx _ hn2
      intro x hx
      rw [List.map_append, List.mem_append] at hx
      cases hx with
      | inl h1 => exact fun hmem => hd x h1 (List.mem_append_right _ hmem)
      | inr h2 => exact fun hmem => hdisj h2 hmem
    rw [step2, hsplit, List.append_assoc]

/-- Array-element walk of the flattener, under the same freshness
conditions. -/
theorem flattenElems_spec (xs : List Json) (i : Nat) (pfx : String)
    (out : List (String × String))
    (hn : ((leafEntriesElems xs i pfx).map Prod.fst).Nodup)
    (hd : ∀ k ∈ out.map Prod.fst, k ∉ (leafEntriesElems xs i pfx).map Prod.fst) :
    flattenElems xs i pfx out = out ++ leafEntriesElems xs i pfx := by
  match xs with
  | [] => simp [flattenElems, leafEntriesElems]
  | v :: rest =>
    have hsplit : leafEntriesElems (v :: rest) i pfx
        = leafEntries v (joinPath pfx (toString i)) ++ leafEntriesElems rest (i + 1) pfx := rfl
    rw [hsplit, List.map_append] at hd
    rw [hsplit, List.map_append, List.nodup_append] at hn
    obtain ⟨hn1, hn2, hdisj⟩ := hn
    have step1 : flattenHelper v (joinPath pfx (toString i)) out
        = out ++ leafEntries v (joinPath pfx (toString i)) :=
      flattenHelper_spec v (joinPath pfx (toString i)) out hn1
        (fun x hx hmem => hd x hx (List.mem_append_left _ hmem))
    show flattenElems rest (i + 1) pfx (flattenHelper v (joinPath pfx (toString i)) out)
        = out ++ leafEntriesElems (v :: rest) i pfx
    rw [step1]
    have step2 : flattenElems rest (i + 1) pfx (out ++ leafEntries v (joinPath pfx (toString i)))
        = (out ++ leafEntries v (joinPath pfx (toString i))) ++ leafEntriesElems rest (i + 1) pfx := by
      apply flattenElems_spec rest (i + 1) pfx _ hn2
      intro x hx
      rw [List.map_append, List.mem_append] at hx
      cases hx with
      | inl h1 => exact fun hmem => hd x h1 (List.mem_append_right _ hmem)
      | inr h2 => exact fun hmem => hdisj h2 hmem
    rw [step2, hsplit, List.append_assoc]

end

/-- With pairwise-distinct leaf paths, `flatten_json` is exactly the list
of leaf entries: one entry per scalar leaf, keyed by its dot-joined
path, with no entry for any intermediate node. -/
theorem flatten_json_eq_leafEntries (v : Json)
    (hn : ((leafEntries v "").map Prod.fst).Nodup) :
    flatten_json v = leafEntries v "" := by
  have h := flattenHelper_spec v "" [] hn (by simp)
  simpa [flatten_json] using h

/-- C1: positional rendering interleaves the statics with the values in
order; each of the `placeholders.length` slots takes its positional
value, a slot beyond the end of the value list takes the empty string,
and values beyond the slot count are ignored (only the first
placeholder-count values can reach the output).  The concrete conjunct
is the spec example: three placeholders rendered against one value. -/
theorem claim_c1_render_positional :
    (∀ (t : String) (vs : List String),
      (ZipTemplate.parse t).render_from_vec vs
        = concatAll (List.zipWith (fun s d => s ++ d) (ZipTemplate.parse t).statics
            (takePad (ZipTemplate.parse t).placeholders.length vs)))
    ∧ (ZipTemplate.parse "\x7b\x7ba\x7d\x7d,\x7b\x7bb\x7d\x7d,\x7b\x7bc\x7d\x7d").render_from_vec ["1"]
        = "1,," := by
  refine ⟨?_, by decide⟩
  intro t vs
  have h := parse_with_capacity_lengths t (t.length * 3 / 2)
  have hlen : (ZipTemplate.parse t).statics.length = (ZipTemplate.parse t).placeholders.length :=
    h.1.trans h.2.symm
  show renderFromVec (ZipTemplate.parse t).statics vs = _
  rw [renderFromVec_spec, hlen]

/-- C2 counterexample: with a mapping that has an entry for the
empty-string key, the sentinel slot does contribute to the output; the
template "Hi" has no real placeholder, only the sentinel, yet renders to
"HiX". -/
theorem claim_c2_counterexample :
    (ZipTemplate.parse "Hi").placeholders = [""]
    ∧ (ZipTemplate.parse "Hi").render [("", "X")] = "HiX"
    ∧ (ZipTemplate.parse "Hi").render [("", "X")] ≠ "Hi" := by
  decide

/-- C2 amended: whenever the mapping has no entry for the empty-string
key, the sentinel slot resolves to empty text and contributes nothing —
the output equals the interleaving that drops the sentinel slot
entirely. -/
theorem claim_c2_sentinel_empty (t : String) (flat : List (String × String))
    (h : List.lookup "" flat = none) :
    (ZipTemplate.parse t).render flat
      = renderFromVec (ZipTemplate.parse t).statics
          (((ZipTemplate.parse t).placeholders.dropLast).map
            fun p => ((List.lookup p flat).getD "")) := by
  have hph := parse_with_capacity_placeholders t (t.length * 3 / 2)
  show renderFromVec (ZipTemplate.parse_with_capacity t (t.length * 3 / 2)).statics
      ((ZipTemplate.parse_with_capacity t (t.length * 3 / 2)).placeholders.map
        fun p => ((List.lookup p flat).getD ""))
    = renderFromVec (ZipTemplate.parse_with_capacity t (t.length * 3 / 2)).statics
        (((ZipTemplate.parse_with_capacity t (t.length * 3 / 2)).placeholders.dropLast).map
          fun p => ((List.lookup p flat).getD ""))
  rw [hph, List.map_append]
  have hres : (List.map (fun p => ((List.lookup p flat).getD "")) [""]) = [""] := by
    simp [h]
  rw [hres, renderFromVec_concat_empty]
  simp

/-- C3 counterexample: an object whose keys are "a" (holding an object
with key "b") and the dotted key "a.b" has two scalar leaves whose
dot-joined paths collide, so the flat map holds a single entry — not one
entry per leaf. -/
theorem claim_c3_counterexample :
    flatten_json (Json.obj [("a", Json.obj [("b", Json.str "1")]), ("a.b", Json.str "2")])
      = [("a.b", "2")]
    ∧ (leafEntries (Json.obj [("a", Json.obj [("b", Json.str "1")]), ("a.b", Json.str "2")]) "").length = 2
    ∧ ¬ ((leafEntries (Json.obj [("a", Json.obj [("b", Json.str "1")]), ("a.b", Json.str "2")]) "").map Prod.fst).Nodup := by
  decide

/-- C3 amended: when the dot-joined leaf paths are pairwise distinct —
collisions are possible, e.g. through object keys containing dots —
`flatten_json` has exactly one entry per scalar leaf, keyed by the
leaf's dot-joined path, and no entry for any intermediate node (every
key of the map is a leaf path). -/
theorem claim_c3_flatten_leaves (v : Json)
    (hn : ((leafEntries v "").map Prod.fst).Nodup) :
    flatten_json v = leafEntries v ""
    ∧ (flatten_json v).length = (leafEntries v "").length
    ∧ (flatten_json v).map Prod.fst = (leafEntries v "").map Prod.fst := by
  have h := flatten_json_eq_leafEntries v hn
  exact ⟨h, by rw [h], by rw [h]⟩

/-- Witness for the amended C3 at a concrete nested object. -/
theorem claim_c3_witness :
    flatten_json (Json.obj [("n", Json.num "5"), ("user", Json.obj [("name", Json.str "Sam")])])
      = leafEntries (Json.obj [("n", Json.num "5"), ("user", Json.obj [("name", Json.str "Sam")])]) "" :=
  (claim_c3_flatten_leaves (Json.obj [("n", Json.num "5"), ("user", Json.obj [("name", Json.str "Sam")])])
    (by decide)).1

/-- C4 counterexample: a string leaf consisting of a single quote
character is flattened to a single backslash — the JSON-escape backslash
survives and the escaped quote is stripped — not to its raw content. -/
theorem claim_c4_counterexample :
    flatten_json (Json.str "\"") = [("", "\\")]
    ∧ flatten_json (Json.str "\"") ≠ [("", "\"")] := by
  decide

/-- C4 amended: a null leaf is flattened to the empty string (not the
text "null"); booleans and numbers keep their canonical textual
representation (numbers whenever that representation contains no quote
character, which canonical number text never does); a string leaf is
flattened to its JSON-serialized form with every leading and trailing
quote character stripped, which equals the raw content exactly when the
content has no character that JSON escapes. -/
theorem claim_c4_scalar_leaves :
    flatten_json Json.null = [("", "")]
    ∧ (∀ b : Bool, flatten_json (Json.bool b) = [("", if b then "true" else "false")])
    ∧ (∀ r : String, (∀ c ∈ r.data, c ≠ '"') → flatten_json (Json.num r) = [("", r)])
    ∧ (∀ s : String, flatten_json (Json.str s)
          = [("", String.mk (trimMatches '"' (jsonStringLiteral s).data))])
    ∧ (∀ s : String, (∀ c ∈ s.data, c ≠ '"' ∧ c ≠ '\\' ∧ 0x20 ≤ c.toNat) →
          flatten_json (Json.str s) = [("", s)]) := by
  refine ⟨rfl, ?_, ?_, ?_, ?_⟩
  · intro b; cases b <;> rfl
  · intro r h
    have h2 : scalarFlat (Json.num r) = scalarToString (Json.num r) := scalarFlat_no_quote h
    show [("", scalarFlat (Json.num r))] = [("", r)]
    rw [h2]
    rfl
  · intro s; rfl
  · intro s hs
    show [("", scalarFlat (Json.str s))] = [("", s)]
    rw [scalarFlat_str_tame hs]

/-- Witness for the amended C4 at concrete number and string leaves. -/
theorem claim_c4_witness :
    flatten_json (Json.num "12.34") = [("", "12.34")]
    ∧ flatten_json (Json.str "Sam") = [("", "Sam")] :=
  ⟨claim_c4_scalar_leaves.2.2.1 "12.34" (by decide),
   claim_c4_scalar_leaves.2.2.2.2 "Sam" (by decide)⟩

/-- C5: for a template with `k` recognized placeholder occurrences,
parsing yields `k + 1` statics and `k + 1` placeholder keys; the two
lists always have equal length and the last key is the empty
sentinel. -/
theorem claim_c5_parse_shape (t : String) :
    (ZipTemplate.parse t).statics.length = countPlaceholders t + 1
    ∧ (ZipTemplate.parse t).placeholders.length = countPlaceholders t + 1
    ∧ (ZipTemplate.parse t).statics.length = (ZipTemplate.parse t).placeholders.length
    ∧ (ZipTemplate.parse t).placeholders.getLast? = some "" := by
  have h := parse_with_capacity_lengths t (t.length * 3 / 2)
  refine ⟨h.1, h.2, h.1.trans h.2.symm, ?_⟩
  show (ZipTemplate.parse_with_capacity t (t.length * 3 / 2)).placeholders.getLast? = some ""
  rw [parse_with_capacity_placeholders]
  simp

/-- C6: at any point of the scan, an open marker with no subsequent close
marker stops placeholder recognition and the whole remaining suffix
becomes the final static segment, verbatim; concretely,
parse "abc open-open x" keeps the dangling marker in the single static
segment and yields only the sentinel placeholder. -/
theorem claim_c6_unterminated :
    (∀ (fuel : Nat) (rest : List Char) (i : Nat),
      findPair '\x7b' '\x7b' rest = some i →
      findPair '\x7d' '\x7d' (rest.drop (i + 2)) = none →
      parseCore (fuel + 1) rest = some ([rest], []))
    ∧ (ZipTemplate.parse "abc \x7b\x7bx").statics = ["abc \x7b\x7bx"]
    ∧ (ZipTemplate.parse "abc \x7b\x7bx").placeholders = [""] := by
  refine ⟨?_, by decide, by decide⟩
  intro fuel rest i h1 h2
  rw [parseCore, h1]
  dsimp only
  rw [h2]

/-- Witness for C6's scan-step statement at the concrete unterminated
template. -/
theorem claim_c6_witness :
    parseCore 1 ("abc \x7b\x7bx".data) = some (["abc \x7b\x7bx".data], []) :=
  claim_c6_unterminated.1 0 ("abc \x7b\x7bx".data) 4 (by decide) (by decide)

/-- C7: rendering against a flat mapping resolves each placeholder key
present in the mapping to its mapped string verbatim and each absent key
to the empty string, interleaved with the statics — never an error,
never a literal placeholder echo.  The concrete conjuncts show the
missing-key example and a substituted render. -/
theorem claim_c7_render_lookup :
    (∀ (t : String) (flat : List (String × String)),
      (ZipTemplate.parse t).render flat
        = concatAll (List.zipWith (fun s d => s ++ d) (ZipTemplate.parse t).statics
            ((ZipTemplate.parse t).placeholders.map fun p => ((List.lookup p flat).getD ""))))
    ∧ (ZipTemplate.parse "Hi, \x7b\x7bname\x7d\x7d!").render [] = "Hi, !"
    ∧ (ZipTemplate.parse "Hi, \x7b\x7bname\x7d\x7d!").render [("name", "World")] = "Hi, World!" := by
  refine ⟨?_, by decide, by decide⟩
  intro t flat
  have h := parse_with_capacity_lengths t (t.length * 3 / 2)
  have hlen : ((ZipTemplate.parse t).placeholders.map
      fun p => ((List.lookup p flat).getD "")).length = (ZipTemplate.parse t).statics.length := by
    rw [List.length_map]
    exact h.2.trans h.1.symm
  show renderFromVec (ZipTemplate.parse t).statics
      ((ZipTemplate.parse t).placeholders.map fun p => ((List.lookup p flat).getD "")) = _
  rw [renderFromVec_spec, ← hlen, takePad_eq_self]

/-- Witness for the amended C2 at a mapping without an empty-string
entry. -/
theorem claim_c2_witness :
    (ZipTemplate.parse "Hi, \x7b\x7bname\x7d\x7d!").render [("name", "World")]
      = renderFromVec (ZipTemplate.parse "Hi, \x7b\x7bname\x7d\x7d!").statics
          (((ZipTemplate.parse "Hi, \x7b\x7bname\x7d\x7d!").placeholders.dropLast).map
            fun p => ((List.lookup p [("name", "World")]).getD "")) :=
  claim_c2_sentinel_empty "Hi, \x7b\x7bname\x7d\x7d!" [("name", "World")] (by decide)

/-- C8: every operation is total.  The renderer and the flattener are
structurally recursive total functions by construction; the substantive
content is that the parse loop terminates on every input — fuel
`length + 1` always yields a result — and therefore every string has a
well-defined parse satisfying the length invariant. -/
theorem claim_c8_total :
    (∀ l : List Char, (parseCore (l.length + 1) l).isSome)
    ∧ (∀ t : String,
        (ZipTemplate.parse t).statics.length = (ZipTemplate.parse t).placeholders.length) := by
  constructor
  · intro l
    exact parseCore_total (l.length + 1) l (Nat.lt_succ_self _)
  · intro t
    have h := parse_with_capacity_lengths t (t.length * 3 / 2)
    exact h.1.trans h.2.symm

/-- C9: a template in which the scanner recognizes no placeholder — no
open marker at all, or only an unterminated one — renders against the
empty mapping to the original template text. -/
theorem claim_c9_no_placeholder_identity (t : String)
    (h : hasPlaceholder t.data = false) :
    (ZipTemplate.parse t).render [] = t := by
  have hraw : parseRaw t.data = ([t.data], []) := by
    have hspec := parseRaw_spec t.data
    unfold hasPlaceholder at h
    cases h1 : findPair '\x7b' '\x7b' t.data with
    | none =>
      rw [parseCore, h1] at hspec
      simpa using hspec.symm
    | some i =>
      rw [h1] at h
      dsimp only at h
      have h2 : findPair '\x7d' '\x7d' (t.data.drop (i + 2)) = none := by
        cases h2 : findPair '\x7d' '\x7d' (t.data.drop (i + 2)) with
        | none => rfl
        | some j => rw [h2] at h; simp at h
      rw [parseCore, h1] at hspec
      dsimp only at hspec
      rw [h2] at hspec
      simpa using hspec.symm
  show renderFromVec (ZipTemplate.parse_with_capacity t (t.length * 3 / 2)).statics
      ((ZipTemplate.parse_with_capacity t (t.length * 3 / 2)).placeholders.map
        fun p => ((List.lookup p ([] : List (String × String))).getD "")) = t
  rw [parse_with_capacity_statics, parse_with_capacity_placeholders, hraw]
  show renderFromVec [String.mk t.data] [""] = t
  show String.mk t.data ++ ("" ++ "") = t
  cases t
  simp

/-- Witness for C9 at a placeholder-free template. -/
theorem claim_c9_witness :
    hasPlaceholder "hello".data = false
    ∧ (ZipTemplate.parse "hello").render [] = "hello" :=
  ⟨by decide, claim_c9_no_placeholder_identity "hello" (by decide)⟩

/-- C10: the pre-emptive size is a pure performance hint with no
correctness semantics: parsing with any two capacities yields the same
statics and placeholders, renders identically against any mapping and
any positional values, and `parse` renders identically to any
`parse_with_capacity`. -/
theorem claim_c10_capacity_irrelevant (t : String) (c1 c2 : Nat)
    (flat : List (String × String)) (vs : List String) :
    (ZipTemplate.parse_with_capacity t c1).statics = (ZipTemplate.parse_with_capacity t c2).statics
    ∧ (ZipTemplate.parse_with_capacity t c1).placeholders
        = (ZipTemplate.parse_with_capacity t c2).placeholders
    ∧ (ZipTemplate.parse_with_capacity t c1).render flat
        = (ZipTemplate.parse_with_capacity t c2).render flat
    ∧ (ZipTemplate.parse_with_capacity t c1).render_from_vec vs
        = (ZipTemplate.parse_with_capacity t c2).render_from_vec vs
    ∧ (ZipTemplate.parse t).render flat = (ZipTemplate.parse_with_capacity t c1).render flat
    ∧ (ZipTemplate.parse t).render_from_vec vs
        = (ZipTemplate.parse_with_capacity t c1).render_from_vec vs :=
  ⟨rfl, rfl, rfl, rfl, rfl, rfl⟩
